import Mathlib

/-!
Shallow embedding of the Economist podcast processor
(`economist_complete.py`): chapter extraction and sequencing,
segment splitting with the short-chapter filter, the manifest,
the archive retention pass, and the RSS feed builder.

Python strings are modelled as lists of characters, millisecond
offsets and second durations as rationals, and the filesystem as
explicit association lists threaded through the operations.
-/

set_option linter.unusedVariables false

/-- Python `str`, modelled as a list of characters. -/
abbrev Str : Type := List Char

namespace Econ

/-- Python `needle in haystack`: substring containment test. -/
def isSubstr (pat : Str) : Str → Bool
  | [] => pat.isEmpty
  | c :: rest => pat.isPrefixOf (c :: rest) || isSubstr pat rest

/-- Python `str.lower`, restricted to ASCII case mapping. -/
def lowerStr (s : Str) : Str := s.map Char.toLower

/-- One chapter descriptor as assembled by `split_economist_file`
    (`start_time` and `duration` in seconds, `title` already sanitized). -/
structure Chapter where
  start_time : ℚ
  duration : ℚ
  title : Str
deriving DecidableEq

/-- The literal `'world this week'`. -/
def worldThisWeekLit : Str := ("world this week").data

/-- The literal `'letter'`. -/
def letterLit : Str := ("letter").data

/-- The literal `'business'`. -/
def businessLit : Str := ("business").data

/-- The literal `'finance'`. -/
def financeLit : Str := ("finance").data

/-- The literal `'economic'`. -/
def economicLit : Str := ("economic").data

/-- The literal `'briefing'`. -/
def briefingLit : Str := ("briefing").data

/-- `get_sort_priority` from `split_economist_file`: the (bucket, secondary)
    sort key, rules evaluated top to bottom, first match wins. -/
def get_sort_priority (c : Chapter) : ℕ × ℚ :=
  let title_lower := lowerStr c.title
  if isSubstr worldThisWeekLit title_lower then (1, 0)
  else if isSubstr letterLit title_lower then (2, 0)
  else if isSubstr businessLit title_lower then (3, c.duration)
  else if isSubstr financeLit title_lower || isSubstr economicLit title_lower then (4, c.duration)
  else if isSubstr briefingLit title_lower then (6, 999999)
  else (5, c.duration)

/-- Modelled from the spec (§4.2): the priority rule table as worded there,
    fixed evaluation order, case-insensitive substring match, first match
    wins; the briefing bucket uses the constant 999999 as the value larger
    than any real duration. Used only to compare against the source's
    `get_sort_priority`. -/
def spec_priority (c : Chapter) : ℕ × ℚ :=
  let t := lowerStr c.title
  if isSubstr worldThisWeekLit t then (1, 0)
  else if isSubstr letterLit t then (2, 0)
  else if isSubstr businessLit t then (3, c.duration)
  else if isSubstr financeLit t || isSubstr economicLit t then (4, c.duration)
  else if isSubstr briefingLit t then (6, 999999)
  else (5, c.duration)

/-- Python tuple order `a <= b` on `(bucket, secondary)` keys. -/
def keyLE (a b : ℕ × ℚ) : Prop := a.1 < b.1 ∨ (a.1 = b.1 ∧ a.2 ≤ b.2)

/-- Python tuple order `a < b` on `(bucket, secondary)` keys. -/
def keyLT (a b : ℕ × ℚ) : Prop := a.1 < b.1 ∨ (a.1 = b.1 ∧ a.2 < b.2)

instance (a b : ℕ × ℚ) : Decidable (keyLE a b) := by unfold keyLE; infer_instance

instance (a b : ℕ × ℚ) : Decidable (keyLT a b) := by unfold keyLT; infer_instance

theorem keyLE_of_not_keyLT {a b : ℕ × ℚ} (h : ¬ keyLT b a) : keyLE a b := by
  unfold keyLT at h
  unfold keyLE
  push_neg at h
  rcases lt_trichotomy a.1 b.1 with h1 | h1 | h1
  · exact Or.inl h1
  · exact Or.inr ⟨h1, h.2 h1.symm⟩
  · exact absurd h1 h.1.not_lt

theorem keyLE_trans {a b c : ℕ × ℚ} (h1 : keyLE a b) (h2 : keyLE b c) : keyLE a c := by
  rcases h1 with h1 | ⟨e1, l1⟩ <;> rcases h2 with h2 | ⟨e2, l2⟩
  · exact Or.inl (h1.trans h2)
  · exact Or.inl (e2 ▸ h1)
  · exact Or.inl (e1 ▸ h2)
  · exact Or.inr ⟨e1.trans e2, l1.trans l2⟩

/-- Insert `a` after every element whose key is strictly below `a`'s key:
    the stable insertion step of the sort. -/
def insortKey {α : Type} (f : α → ℕ × ℚ) (a : α) : List α → List α
  | [] => [a]
  | b :: l => if keyLT (f b) (f a) then b :: insortKey f a l else a :: b :: l

/-- Stable insertion sort by key: the model of Python's stable
    `list.sort(key=...)`. -/
def sortByKey {α : Type} (f : α → ℕ × ℚ) : List α → List α
  | [] => []
  | a :: l => insortKey f a (sortByKey f l)

/-- `chapter_info.sort(key=get_sort_priority)`: the chapter sequencing
    step (ChapterSequencer). -/
def sequence (cs : List Chapter) : List Chapter := sortByKey get_sort_priority cs

theorem keyLE_of_keyLT {a b : ℕ × ℚ} (h : keyLT a b) : keyLE a b := by
  rcases h with h | ⟨e, l⟩
  · exact Or.inl h
  · exact Or.inr ⟨e, l.le⟩

theorem keyLT_irrefl (a : ℕ × ℚ) : ¬ keyLT a a := by
  rintro (h | ⟨e, l⟩)
  · exact lt_irrefl _ h
  · exact lt_irrefl _ l

theorem insortKey_perm {α : Type} (f : α → ℕ × ℚ) (a : α) (l : List α) :
    List.Perm (insortKey f a l) (a :: l) := by
  induction l with
  | nil => exact List.Perm.refl _
  | cons b l ih =>
    unfold insortKey
    split
    · exact (List.Perm.cons b ih).trans (List.Perm.swap a b l)
    · exact List.Perm.refl _

theorem sortByKey_perm {α : Type} (f : α → ℕ × ℚ) (l : List α) :
    List.Perm (sortByKey f l) l := by
  induction l with
  | nil => exact List.Perm.refl _
  | cons a l ih => exact (insortKey_perm f a (sortByKey f l)).trans (List.Perm.cons a ih)

theorem insortKey_pairwise {α : Type} (f : α → ℕ × ℚ) (a : α) {l : List α}
    (h : l.Pairwise (fun x y => keyLE (f x) (f y))) :
    (insortKey f a l).Pairwise (fun x y => keyLE (f x) (f y)) := by
  induction l with
  | nil => simp [insortKey]
  | cons b l ih =>
    rcases List.pairwise_cons.mp h with ⟨hb, hl⟩
    unfold insortKey
    split
    · rename_i hlt
      refine List.pairwise_cons.mpr ⟨?_, ih hl⟩
      intro y hy
      rcases List.mem_cons.mp ((List.Perm.mem_iff (insortKey_perm f a l)).mp hy) with hy | hy
      · subst hy; exact keyLE_of_keyLT hlt
      · exact hb y hy
    · rename_i hnlt
      refine List.pairwise_cons.mpr ⟨?_, h⟩
      intro y hy
      rcases List.mem_cons.mp hy with hy | hy
      · subst hy; exact keyLE_of_not_keyLT hnlt
      · exact keyLE_trans (keyLE_of_not_keyLT hnlt) (hb y hy)

theorem sortByKey_pairwise {α : Type} (f : α → ℕ × ℚ) (l : List α) :
    (sortByKey f l).Pairwise (fun x y => keyLE (f x) (f y)) := by
  induction l with
  | nil => simp [sortByKey]
  | cons a l ih => exact insortKey_pairwise f a ih

theorem filter_insortKey {α : Type} (f : α → ℕ × ℚ) (a : α) (k : ℕ × ℚ) (l : List α) :
    (insortKey f a l).filter (fun x => decide (f x = k))
      = if f a = k then a :: l.filter (fun x => decide (f x = k))
        else l.filter (fun x => decide (f x = k)) := by
  induction l with
  | nil =>
    by_cases hak : f a = k <;> simp [insortKey, List.filter_cons, hak]
  | cons b l ih =>
    unfold insortKey
    split
    · rename_i hlt
      by_cases hak : f a = k
      · have hbk : f b ≠ k := by
          intro hbk
          rw [hbk, hak] at hlt
          exact keyLT_irrefl k hlt
        simp [List.filter_cons, hbk, hak, ih]
      · by_cases hbk : f b = k <;> simp [List.filter_cons, hbk, hak, ih]
    · by_cases hak : f a = k <;> by_cases hbk : f b = k <;>
        simp [List.filter_cons, hbk, hak]

theorem filter_sortByKey {α : Type} (f : α → ℕ × ℚ) (k : ℕ × ℚ) (l : List α) :
    (sortByKey f l).filter (fun x => decide (f x = k))
      = l.filter (fun x => decide (f x = k)) := by
  induction l with
  | nil => rfl
  | cons a l ih =>
    unfold sortByKey
    rw [filter_insortKey, ih, List.filter_cons]
    split <;> rename_i h <;> simp_all

/-- C2: `sequence` orders chapters ascending by the `(bucket, secondary)`
    key computed by `get_sort_priority` (whose rule table coincides with the
    spec's rule table `spec_priority`, fixed evaluation order, first match
    wins), it is a permutation of its input, and it is stable: chapters with
    identical keys keep their relative extraction order. -/
theorem C2_sequence_sorted_stable (cs : List Chapter) :
    (∀ c : Chapter, get_sort_priority c = spec_priority c)
    ∧ List.Perm (sequence cs) cs
    ∧ (sequence cs).Pairwise
        (fun a b => keyLE (get_sort_priority a) (get_sort_priority b))
    ∧ ∀ k : ℕ × ℚ,
        (sequence cs).filter (fun c => decide (get_sort_priority c = k))
          = cs.filter (fun c => decide (get_sort_priority c = k)) := by
  refine ⟨fun c => rfl, sortByKey_perm _ cs, sortByKey_pairwise _ cs, fun k => filter_sortByKey _ k cs⟩

/-- Decimal digit string of a natural number (Python `str(n)`). -/
def natStr (n : ℕ) : Str := Nat.toDigits 10 n

/-- Python `f"{i:02d}"`: decimal, zero-padded to width two. -/
def pad2 (n : ℕ) : Str := if n < 10 then '0' :: natStr n else natStr n

/-- The literal `' - '`. -/
def sepLit : Str := (" - ").data

/-- The literal `'.mp3'`. -/
def mp3Lit : Str := (".mp3").data

/-- The per-chapter output file name `f"{i:02d} - {title}.mp3"`. -/
def chapterFileName (i : ℕ) (title : Str) : Str :=
  pad2 i ++ sepLit ++ title ++ mp3Lit

/-- The splitting loop of `split_economist_file` (lines 189-212):
    `i` enumerates the sequenced chapters starting at 1; chapters shorter
    than 60 seconds are skipped with `continue`; for the rest, ffmpeg is
    invoked and the file name is recorded iff the output file exists
    afterwards, which the oracle `produced` reports per file name. Returns
    `chapter_files`. -/
def splitChaptersAux (produced : Str → Bool) : ℕ → List Chapter → List Str
  | _, [] => []
  | i, c :: cs =>
    if c.duration < 60 then splitChaptersAux produced (i + 1) cs
    else
      if produced (chapterFileName i c.title) then
        chapterFileName i c.title :: splitChaptersAux produced (i + 1) cs
      else splitChaptersAux produced (i + 1) cs

/-- `chapter_files` produced for a sequenced chapter list (enumeration
    starts at 1). -/
def splitChapters (seq : List Chapter) (produced : Str → Bool) : List Str :=
  splitChaptersAux produced 1 seq

/-- `enumerate(l, i)`: pair every element with its index, starting at `i`. -/
def enumFrom {α : Type} : ℕ → List α → List (ℕ × α)
  | _, [] => []
  | i, a :: l => (i, a) :: enumFrom (i + 1) l

/-- The chapter at position `i` is kept and its extraction produced a file. -/
def keptOk (produced : Str → Bool) (p : ℕ × Chapter) : Bool :=
  !(decide (p.2.duration < 60)) && produced (chapterFileName p.1 p.2.title)

theorem splitChaptersAux_eq (produced : Str → Bool) (i : ℕ) (cs : List Chapter) :
    splitChaptersAux produced i cs
      = ((enumFrom i cs).filter (keptOk produced)).map
          (fun p => chapterFileName p.1 p.2.title) := by
  induction cs generalizing i with
  | nil => rfl
  | cons c cs ih =>
    simp only [splitChaptersAux, enumFrom, List.filter_cons, keptOk]
    by_cases hd : c.duration < 60
    · simp [hd, ih]
    · by_cases hp : produced (chapterFileName i c.title) <;> simp [hd, hp, ih]

theorem enumFrom_fst_lt {α : Type} (i : ℕ) (l : List α) :
    (enumFrom i l).Pairwise (fun p q => p.1 < q.1) := by
  induction l generalizing i with
  | nil => exact List.Pairwise.nil
  | cons a l ih =>
    refine List.pairwise_cons.mpr ⟨?_, ih (i + 1)⟩
    intro q hq
    have : ∀ j : ℕ, ∀ l' : List α, ∀ q : ℕ × α, q ∈ enumFrom j l' → j ≤ q.1 := by
      intro j l'
      induction l' generalizing j with
      | nil => intro q hq; cases hq
      | cons b l' ih' =>
        intro q hq
        rcases List.mem_cons.mp hq with hq | hq
        · subst hq; exact le_refl _
        · exact (Nat.le_succ j).trans (ih' (j + 1) q hq)
    exact Nat.lt_of_succ_le (this (i + 1) l q hq)

/-- C1 (amended): in the splitting loop, a chapter shorter than 60 seconds
    contributes no manifest entry, but it still consumes an output index:
    every chapter — kept or skipped — is numbered by its 1-based position in
    the final sequence, the produced entries are exactly the kept chapters
    whose extraction produced a file, named by that position, and the
    positions used are strictly increasing (not necessarily contiguous, not
    necessarily starting at 1). -/
theorem C1_split_indices (seq : List Chapter) (produced : Str → Bool) :
    splitChapters seq produced
      = ((enumFrom 1 seq).filter (keptOk produced)).map
          (fun p => chapterFileName p.1 p.2.title)
    ∧ (((enumFrom 1 seq).filter (keptOk produced)).map Prod.fst).Pairwise (· < ·)
    ∧ ∀ p ∈ (enumFrom 1 seq).filter (keptOk produced), ¬ p.2.duration < 60 := by
  refine ⟨splitChaptersAux_eq produced 1 seq, ?_, ?_⟩
  · exact ((enumFrom_fst_lt 1 seq).filter _).map _ (fun a b h => h)
  · intro p hp
    have := (List.mem_filter.mp hp).2
    simp only [keptOk, Bool.and_eq_true, Bool.not_eq_true', decide_eq_false_iff_not] at this
    exact this.1

/-- The sequenced-chapter list of the counterexample: a 30-second chapter
    followed by a 100-second one (both in the default bucket, already in
    sequence order). -/
def exC1 : List Chapter := [⟨0, 30, ("A").data⟩, ⟨0, 100, ("B").data⟩]

/-- C1 (counterexample): with the 30-second chapter skipped, the single kept
    chapter is numbered 02, not 01 — the skipped chapter consumed index 1,
    so kept-chapter indices are not contiguous integers starting at 1. -/
theorem C1_counterexample :
    splitChapters exC1 (fun _ => true) = [("02 - B.mp3").data]
    ∧ ¬ splitChapters exC1 (fun _ => true) = [("01 - B.mp3").data] := by
  refine ⟨by decide, by decide⟩

/-- Header line `The Economist Weekly Edition` of the manifest. -/
def manifestHeader : Str := ("The Economist Weekly Edition").data

/-- The literal `Processed: `. -/
def processedLit : Str := ("Processed: ").data

/-- The `'='*60` separator line. -/
def manifestSepLine : Str := List.replicate 60 '='

/-- The manifest file `00 - Chapter List.txt`, as the list of its lines
    (lines 214-221): publication header, processing-timestamp line,
    separator, blank line, then one produced chapter file name per line in
    final order. -/
def manifestLines (ts : Str) (seq : List Chapter) (produced : Str → Bool) : List Str :=
  [manifestHeader, processedLit ++ ts, manifestSepLine, []] ++ splitChapters seq produced

/-- C7: a failed extraction (oracle `produced` false) removes only that
    chapter: every kept chapter whose own extraction produced a file is
    still enumerated, regardless of the oracle's verdict on any other
    chapter; only chapters whose output file exists are counted as produced;
    and the manifest lists exactly the produced file names in final order
    under the publication header and a processing timestamp. -/
theorem C7_split_error_handling (ts : Str) (seq : List Chapter) (produced : Str → Bool) :
    manifestLines ts seq produced
      = [manifestHeader, processedLit ++ ts, manifestSepLine, []]
          ++ ((enumFrom 1 seq).filter (keptOk produced)).map
              (fun p => chapterFileName p.1 p.2.title)
    ∧ (∀ p ∈ enumFrom 1 seq, ¬ p.2.duration < 60 →
        produced (chapterFileName p.1 p.2.title) = true →
        chapterFileName p.1 p.2.title ∈ splitChapters seq produced)
    ∧ ∀ f ∈ splitChapters seq produced, produced f = true := by
  refine ⟨?_, ?_, ?_⟩
  · simp [manifestLines, splitChaptersAux_eq produced 1 seq, splitChapters]
  · intro p hp hd hok
    rw [splitChapters, splitChaptersAux_eq]
    exact List.mem_map_of_mem _ (List.mem_filter.mpr ⟨hp, by
      simp [keptOk, hd, hok]⟩)
  · intro f hf
    rw [splitChapters, splitChaptersAux_eq] at hf
    rcases List.mem_map.mp hf with ⟨p, hp, hpf⟩
    have := (List.mem_filter.mp hp).2
    simp only [keptOk, Bool.and_eq_true] at this
    exact hpf ▸ this.2

/-- A chapter sub-frame: `text` is `str(frame.text[0])` when the frame
    exposes textual content (`hasattr(frame, 'text')`), else `none`. -/
structure SubFrame where
  text : Option Str
deriving DecidableEq

/-- A `CHAP` frame: start/end offsets in milliseconds and the frame's
    sub-frames in iteration order. -/
structure ChapFrame where
  start_ms : ℕ
  end_ms : ℕ
  sub_frames : List SubFrame
deriving DecidableEq

/-- Python `c.isalnum() or c in (' ', '-', '_')` (ASCII model of
    `str.isalnum`). -/
def allowedChar (c : Char) : Bool :=
  c.isAlphanum || c = ' ' || c = '-' || c = '_'

/-- Python `str.strip()`: drop leading and trailing whitespace. -/
def pyStrip (s : Str) : Str :=
  ((s.dropWhile Char.isWhitespace).reverse.dropWhile Char.isWhitespace).reverse

/-- Title sanitization (line 137): keep only alphanumerics, space, hyphen
    and underscore, strip, truncate to 50 characters. -/
def sanitizeTitle (s : Str) : Str := (pyStrip (s.filter allowedChar)).take 50

/-- The fallback literal `Chapter_`. -/
def chapterFallbackLit : Str := ("Chapter_").data

/-- Title resolution for the chapter extracted at 0-based position `k`
    (lines 132-138): the first sub-frame exposing text wins and its text is
    sanitized; otherwise the positional placeholder `Chapter_<k+1>`
    (1-based extraction index) remains. -/
def resolveTitle (k : ℕ) (frames : List SubFrame) : Str :=
  match frames.findSome? SubFrame.text with
  | some t => sanitizeTitle t
  | none => chapterFallbackLit ++ natStr (k + 1)

/-- ChapterExtractor (lines 124-144): one descriptor per `CHAP` frame, in
    frame order; offsets converted to seconds, duration is the difference. -/
def extractChapters (chaps : List ChapFrame) : List Chapter :=
  (enumFrom 0 chaps).map (fun p =>
    { start_time := (p.2.start_ms : ℚ) / 1000
      duration := (p.2.end_ms : ℚ) / 1000 - (p.2.start_ms : ℚ) / 1000
      title := resolveTitle p.1 p.2.sub_frames })

theorem mem_pyStrip {s : Str} {c : Char} (h : c ∈ pyStrip s) : c ∈ s := by
  unfold pyStrip at h
  rw [List.mem_reverse] at h
  have h1 := (List.dropWhile_sublist (l := (s.dropWhile Char.isWhitespace).reverse)
    (p := Char.isWhitespace)).mem h
  rw [List.mem_reverse] at h1
  exact (List.dropWhile_sublist (l := s) (p := Char.isWhitespace)).mem h1

theorem findSome?_none_of_all_none {frames : List SubFrame}
    (h : ∀ fr ∈ frames, fr.text = none) :
    frames.findSome? SubFrame.text = none := by
  induction frames with
  | nil => rfl
  | cons fr frames ih =>
    rw [List.findSome?_cons, h fr (List.mem_cons_self _ _)]
    exact ih (fun fr' hfr' => h fr' (List.mem_cons_of_mem _ hfr'))

/-- C5: sanitized titles contain only alphanumerics, space, hyphen and
    underscore and are at most 50 characters long; extracted titles are
    resolved per extraction position; and a chapter none of whose sub-frames
    exposes text gets the positional fallback `Chapter_<k+1>` for 1-based
    extraction index `k+1` (extraction order, not final sequence order). -/
theorem C5_title_sanitization :
    (∀ s : Str, (∀ c ∈ sanitizeTitle s, allowedChar c = true)
      ∧ (sanitizeTitle s).length ≤ 50)
    ∧ (∀ chaps : List ChapFrame,
        (extractChapters chaps).map Chapter.title
          = (enumFrom 0 chaps).map (fun p => resolveTitle p.1 p.2.sub_frames))
    ∧ (∀ k : ℕ, ∀ frames : List SubFrame, (∀ fr ∈ frames, fr.text = none) →
        resolveTitle k frames = chapterFallbackLit ++ natStr (k + 1)) := by
  refine ⟨fun s => ⟨?_, ?_⟩, ?_, ?_⟩
  · intro c hc
    have := mem_pyStrip (List.mem_of_mem_take hc)
    exact (List.mem_filter.mp this).2
  · calc (sanitizeTitle s).length = min 50 (pyStrip (s.filter allowedChar)).length := by
          rw [sanitizeTitle, List.length_take]
      _ ≤ 50 := min_le_left _ _
  · intro chaps
    simp [extractChapters, List.map_map]
  · intro k frames h
    rw [resolveTitle, findSome?_none_of_all_none h]

/-- Python `<` on strings: code-point lexicographic order. -/
def strLT (a b : Str) : Prop := List.Lex (fun x y : Char => x < y) a b

instance (a b : Str) : Decidable (strLT a b) := by unfold strLT; infer_instance

theorem strLT_asymm {a b : Str} (h : strLT a b) : ¬ strLT b a :=
  IsAsymm.asymm (r := List.Lex (fun x y : Char => x < y)) a b h

theorem not_strLT_trans {a b c : Str} (hba : ¬ strLT a b) (hcb : ¬ strLT b c)
    (hca : strLT a c) : False := by
  unfold strLT at hba hcb hca
  rcases @IsOrderConnected.conn Str (List.Lex (fun x y : Char => x < y)) _ a b c hca with h | h
  · exact hba h
  · exact hcb h

/-- Stable descending insertion by name (the inner step of Python
    `list.sort(reverse=True)`): `a` goes after every element whose name is
    strictly greater. -/
def insortDesc {α : Type} (name : α → Str) (a : α) : List α → List α
  | [] => [a]
  | b :: l => if strLT (name a) (name b) then b :: insortDesc name a l else a :: b :: l

/-- Python `list.sort(reverse=True)` keyed by `name`: stable descending
    sort. -/
def sortDescBy {α : Type} (name : α → Str) : List α → List α
  | [] => []
  | a :: l => insortDesc name a (sortDescBy name l)

theorem insortDesc_perm {α : Type} (name : α → Str) (a : α) (l : List α) :
    List.Perm (insortDesc name a l) (a :: l) := by
  induction l with
  | nil => exact List.Perm.refl _
  | cons b l ih =>
    unfold insortDesc
    split
    · exact (List.Perm.cons b ih).trans (List.Perm.swap a b l)
    · exact List.Perm.refl _

theorem sortDescBy_perm {α : Type} (name : α → Str) (l : List α) :
    List.Perm (sortDescBy name l) l := by
  induction l with
  | nil => exact List.Perm.refl _
  | cons a l ih => exact (insortDesc_perm name a (sortDescBy name l)).trans (List.Perm.cons a ih)

theorem insortDesc_pairwise {α : Type} (name : α → Str) (a : α) {l : List α}
    (h : l.Pairwise (fun x y => ¬ strLT (name x) (name y))) :
    (insortDesc name a l).Pairwise (fun x y => ¬ strLT (name x) (name y)) := by
  induction l with
  | nil => simp [insortDesc]
  | cons b l ih =>
    rcases List.pairwise_cons.mp h with ⟨hb, hl⟩
    unfold insortDesc
    split
    · rename_i hlt
      refine List.pairwise_cons.mpr ⟨?_, ih hl⟩
      intro y hy
      rcases List.mem_cons.mp ((List.Perm.mem_iff (insortDesc_perm name a l)).mp hy) with hy | hy
      · subst hy; exact strLT_asymm hlt
      · exact hb y hy
    · rename_i hnlt
      refine List.pairwise_cons.mpr ⟨?_, h⟩
      intro y hy
      rcases List.mem_cons.mp hy with hy | hy
      · subst hy; exact hnlt
      · exact fun hlt => not_strLT_trans hnlt (hb y hy) hlt

theorem sortDescBy_pairwise {α : Type} (name : α → Str) (l : List α) :
    (sortDescBy name l).Pairwise (fun x y => ¬ strLT (name x) (name y)) := by
  induction l with
  | nil => simp [sortDescBy]
  | cons a l ih => exact insortDesc_pairwise name a ih

/-- The literal `Economist_`. -/
def economistPrefLit : Str := ("Economist_").data

/-- The literal `Archive`. -/
def archiveNameLit : Str := ("Archive").data

/-- Line 248: a live-tree entry counts as a dated episode directory when its
    name starts with `Economist_` and is not `Archive`. -/
def isEpisodeDirName (n : Str) : Bool :=
  economistPrefLit.isPrefixOf n && !(decide (n = archiveNameLit))

/-- The directory layer the archival pass acts on: names of directories in
    the base folder and in the archive folder. -/
structure ArchState where
  live : List Str
  arch : List Str
deriving DecidableEq

/-- `shutil.rmtree(dst)` when present followed by `shutil.move(src, dst)`
    (lines 259-261): a same-named archived directory is replaced. -/
def moveDirToArchive (arch : List Str) (n : Str) : List Str :=
  arch.filter (fun m => !(decide (m = n))) ++ [n]

/-- One iteration of the archival loop (lines 254-264): a directory whose
    relocation raises (per the oracle `fails`) is logged and left in place;
    otherwise it leaves the live tree and replaces any same-named archived
    directory. -/
def archStep (fails : Str → Bool) (s : ArchState) (n : Str) : ArchState :=
  if fails n then s
  else ⟨s.live.filter (fun m => !(decide (m = n))), moveDirToArchive s.arch n⟩

/-- `archive_old_episodes` (lines 239-267): collect dated episode
    directories, sort descending, and relocate all but the first. -/
def archive_old_episodes (fails : Str → Bool) (s : ArchState) : ArchState :=
  let eps := sortDescBy id (s.live.filter isEpisodeDirName)
  if eps.length > 1 then (eps.drop 1).foldl (archStep fails) s else s

theorem count_moveDirToArchive (arch : List Str) (n m : Str) :
    List.count m (moveDirToArchive arch n)
      = if m = n then 1 else List.count m arch := by
  unfold moveDirToArchive
  rw [List.count_append]
  by_cases h : m = n
  · subst h
    rw [if_pos rfl, List.count_eq_zero_of_not_mem, Nat.zero_add]
    · simp [List.count_cons]
    · intro hmem
      have := (List.mem_filter.mp hmem).2
      simp at this
  · rw [if_neg h, List.count_filter (by simp [h])]
    have h1 : List.count m [n] = 0 := List.count_eq_zero_of_not_mem (by simp [h])
    omega

theorem foldl_archStep_live (fails : Str → Bool) (ns : List Str) (s : ArchState) :
    (ns.foldl (archStep fails) s).live
      = s.live.filter (fun m => !(decide (m ∈ ns.filter (fun n => !(fails n))))) := by
  induction ns generalizing s with
  | nil => simp
  | cons n ns ih =>
    rw [List.foldl_cons]
    by_cases hf : fails n = true
    · have hs : archStep fails s n = s := by simp [archStep, hf]
      rw [hs, ih]
      refine List.filter_congr (fun m _ => ?_)
      simp [List.filter_cons, hf]
    · have hf' : fails n = false := by simpa using hf
      have hs : (archStep fails s n).live = s.live.filter (fun m => !(decide (m = n))) := by
        simp [archStep, hf']
      rw [ih, hs, List.filter_filter]
      refine List.filter_congr (fun m _ => ?_)
      simp only [List.filter_cons, hf', Bool.not_false, if_pos, List.mem_cons]
      by_cases hmn : m = n <;> simp [hmn]

theorem foldl_archStep_count (fails : Str → Bool) (ns : List Str) (s : ArchState) (m : Str) :
    List.count m ((ns.foldl (archStep fails) s).arch)
      = if m ∈ ns.filter (fun n => !(fails n)) then 1 else List.count m s.arch := by
  induction ns generalizing s with
  | nil => simp
  | cons n ns ih =>
    rw [List.foldl_cons]
    by_cases hf : fails n = true
    · have hs : archStep fails s n = s := by simp [archStep, hf]
      rw [hs, ih]
      have : (List.filter (fun n => !(fails n)) (n :: ns)) = List.filter (fun n => !(fails n)) ns := by
        simp [List.filter_cons, hf]
      rw [this]
    · have hf' : fails n = false := by simpa using hf
      have hs : (archStep fails s n).arch = moveDirToArchive s.arch n := by
        simp [archStep, hf']
      rw [ih, hs, count_moveDirToArchive]
      by_cases hm : m ∈ List.filter (fun n => !(fails n)) ns
      · simp [List.filter_cons, hf', hm]
      · by_cases hmn : m = n <;> simp [List.filter_cons, hf', hm, hmn]

theorem filter_not_mem_eq_singleton (newest : Str) (rest : List Str) :
    ∀ l : List Str, l.Nodup → (∀ x ∈ l, x = newest ∨ x ∈ rest) →
      newest ∉ rest → newest ∈ l →
      l.filter (fun m => !(decide (m ∈ rest))) = [newest] := by
  intro l
  induction l with
  | nil => intro _ _ _ h; cases h
  | cons a t ih =>
    intro hnd hcov hnr hmem
    rcases List.nodup_cons.mp hnd with ⟨hat, htnd⟩
    by_cases han : a = newest
    · subst han
      rw [List.filter_cons_of_pos (by simp [hnr])]
      have ht : t.filter (fun m => !(decide (m ∈ rest))) = [] := by
        rw [List.filter_eq_nil_iff]
        intro x hx
        rcases hcov x (List.mem_cons_of_mem _ hx) with hx' | hx'
        · exact absurd (hx' ▸ hx) hat
        · simp [hx']
      rw [ht]
    · rcases hcov a (List.mem_cons_self _ _) with ha | ha
      · exact absurd ha han
      · rw [List.filter_cons_of_neg (by simp [ha])]
        refine ih htnd (fun x hx => hcov x (List.mem_cons_of_mem _ hx)) hnr ?_
        rcases List.mem_cons.mp hmem with h | h
        · exact absurd h.symm han
        · exact h

/-- C4 (amended): with at least two dated episode directories in the live
    tree, each non-newest directory whose relocation does not fail is moved
    into the archive (a same-named archived directory being replaced, so it
    occurs there exactly once) and leaves the live tree; a failing
    relocation leaves that one directory in place without stopping the
    loop; the directory greatest in the descending name order always stays;
    and when no relocation fails, exactly that one dated directory remains
    in the live tree. -/
theorem C4_archive_retention (fails : Str → Bool) (s : ArchState) (newest : Str)
    (rest : List Str) (hnd : s.live.Nodup)
    (heps : sortDescBy id (s.live.filter isEpisodeDirName) = newest :: rest)
    (hrest : rest ≠ []) :
    (∀ n ∈ rest, fails n = false →
        List.count n (archive_old_episodes fails s).arch = 1
        ∧ n ∉ (archive_old_episodes fails s).live)
    ∧ (∀ n ∈ rest, fails n = true → n ∈ (archive_old_episodes fails s).live)
    ∧ newest ∈ (archive_old_episodes fails s).live
    ∧ (∀ n ∈ rest, ¬ strLT newest n)
    ∧ ((∀ n ∈ rest, fails n = false) →
        (archive_old_episodes fails s).live.filter isEpisodeDirName = [newest]) := by
  have hperm : List.Perm (newest :: rest) (s.live.filter isEpisodeDirName) := by
    rw [← heps]; exact sortDescBy_perm id _
  have hlnd : (s.live.filter isEpisodeDirName).Nodup := hnd.filter _
  have hcons_nd : (newest :: rest).Nodup := (List.Perm.nodup_iff hperm).mpr hlnd
  have hnr : newest ∉ rest := (List.nodup_cons.mp hcons_nd).1
  have harch : archive_old_episodes fails s = rest.foldl (archStep fails) s := by
    rw [archive_old_episodes]
    simp only [heps]
    rw [if_pos]
    · rfl
    · simp only [List.length_cons, gt_iff_lt]
      have : rest.length ≠ 0 := fun h => hrest (List.eq_nil_of_length_eq_zero h)
      omega
  have hlive : (archive_old_episodes fails s).live
      = s.live.filter (fun m => !(decide (m ∈ rest.filter (fun n => !(fails n))))) := by
    rw [harch, foldl_archStep_live]
  have hsublive : ∀ n ∈ rest, n ∈ s.live := by
    intro n hn
    exact (List.mem_filter.mp (hperm.mem_iff.mp (List.mem_cons_of_mem _ hn))).1
  refine ⟨?_, ?_, ?_, ?_, ?_⟩
  · intro n hn hfn
    have hmoved : n ∈ rest.filter (fun n => !(fails n)) :=
      List.mem_filter.mpr ⟨hn, by simp [hfn]⟩
    constructor
    · rw [harch, foldl_archStep_count, if_pos hmoved]
    · rw [hlive]
      intro hmem
      have := (List.mem_filter.mp hmem).2
      simp only [Bool.not_eq_true', decide_eq_false_iff_not] at this
      exact this hmoved
  · intro n hn hfn
    have hnm : n ∉ rest.filter (fun n => !(fails n)) := by
      intro h
      have := (List.mem_filter.mp h).2
      simp [hfn] at this
    rw [hlive]
    refine List.mem_filter.mpr ⟨hsublive n hn, ?_⟩
    simp only [Bool.not_eq_true', decide_eq_false_iff_not]
    exact hnm
  · have hnewlive : newest ∈ s.live :=
      (List.mem_filter.mp (hperm.mem_iff.mp (List.mem_cons_self _ _))).1
    have hnm : newest ∉ rest.filter (fun n => !(fails n)) := by
      intro h
      exact hnr (List.mem_filter.mp h).1
    rw [hlive]
    refine List.mem_filter.mpr ⟨hnewlive, ?_⟩
    simp only [Bool.not_eq_true', decide_eq_false_iff_not]
    exact hnm
  · have hpw := sortDescBy_pairwise id (s.live.filter isEpisodeDirName)
    rw [heps] at hpw
    exact fun n hn => (List.pairwise_cons.mp hpw).1 n hn
  · intro hall
    have hmoved : rest.filter (fun n => !(fails n)) = rest :=
      List.filter_eq_self.mpr (fun n hn => by simp [hall n hn])
    rw [hlive, hmoved, List.filter_filter]
    have hcomm : s.live.filter (fun m => isEpisodeDirName m && !(decide (m ∈ rest)))
        = (s.live.filter isEpisodeDirName).filter (fun m => !(decide (m ∈ rest))) := by
      rw [List.filter_filter]
      exact List.filter_congr (fun m _ => by rw [Bool.and_comm])
    rw [hcomm]
    exact filter_not_mem_eq_singleton newest rest _ hlnd
      (fun x hx => List.mem_cons.mp (hperm.symm.mem_iff.mp hx)) hnr
      (hperm.mem_iff.mp (List.mem_cons_self _ _))

/-- The two dated directories of the C4 counterexample. -/
def exLiveC4 : List Str := [("Economist_2024-01-02").data, ("Economist_2024-01-01").data]

/-- The failure oracle of the C4 counterexample: moving the older directory
    raises. -/
def exFailC4 : Str → Bool := fun n => decide (n = ("Economist_2024-01-01").data)

/-- C4 (counterexample): with two dated directories and the older one's
    relocation failing, two dated directories remain in the live tree after
    the archival pass — not exactly one as the claim states. -/
theorem C4_counterexample :
    ((archive_old_episodes exFailC4 ⟨exLiveC4, []⟩).live.filter isEpisodeDirName).length = 2
    ∧ ¬ ((archive_old_episodes exFailC4 ⟨exLiveC4, []⟩).live.filter
          isEpisodeDirName).length = 1 := by
  refine ⟨by decide, by decide⟩

/-- A source MP3 in the base folder: its name, its (opaque) audio content,
    and the `CHAP` frames its ID3 metadata carries. -/
structure FileData where
  name : Str
  content : Str
  chaps : List ChapFrame
deriving DecidableEq

/-- Filesystem state around `split_economist_file`: loose files of the base
    folder, the episode folders with their files, and the archive folder's
    files — all as (name, content) association lists. -/
structure FS where
  base : List (Str × Str)
  episodes : List (Str × List (Str × Str))
  archive : List (Str × Str)
deriving DecidableEq

/-- Read a file by name. -/
def getFile : List (Str × Str) → Str → Option Str
  | [], _ => none
  | e :: es, n => if e.1 = n then some e.2 else getFile es n

/-- Create or overwrite a file. -/
def setFile : List (Str × Str) → Str → Str → List (Str × Str)
  | [], n, c => [(n, c)]
  | e :: es, n, c => if e.1 = n then (n, c) :: es else e :: setFile es n c

/-- Delete a file. -/
def removeFile (files : List (Str × Str)) (n : Str) : List (Str × Str) :=
  files.filter (fun e => !(decide (e.1 = n)))

/-- Contents of an episode folder (empty when absent, matching
    `os.makedirs(..., exist_ok=True)`). -/
def getFolder : List (Str × List (Str × Str)) → Str → List (Str × Str)
  | [], _ => []
  | e :: es, n => if e.1 = n then e.2 else getFolder es n

/-- Replace (or create) an episode folder's contents. -/
def setFolder : List (Str × List (Str × Str)) → Str → List (Str × Str) →
    List (Str × List (Str × Str))
  | [], n, fl => [(n, fl)]
  | e :: es, n, fl => if e.1 = n then (n, fl) :: es else e :: setFolder es n fl

/-- The literal `original.mp3`. -/
def originalLit : Str := ("original.mp3").data

/-- The literal `original_`. -/
def origPrefLit : Str := ("original_").data

/-- The literal `00 - Chapter List.txt`. -/
def manifestName : Str := ("00 - Chapter List.txt").data

/-- The manifest file content: every line of `manifestLines` terminated by a
    newline, concatenated. -/
def manifestText (ts : Str) (produced : List Str) : Str :=
  (([manifestHeader, processedLit ++ ts, manifestSepLine, ([] : Str)] ++ produced).map
    (fun l => l ++ ['\x0a'])).flatten

/-- `split_economist_file` (lines 90-237) at the filesystem level. `ok` is
    the per-file oracle for "the output file exists after the ffmpeg call",
    `ts` the processing timestamp, `date` the run's date token. The input is
    moved into the dated folder as `original.mp3`; with no `CHAP` frames it
    is renamed back to its basename and the function returns; otherwise the
    sequenced chapters are split, the manifest is written, and the original
    is moved to `Archive/original_<date>.mp3`, replacing any previous one. -/
def split_economist_file (ok : Str → Bool) (ts date : Str) (fs : FS) (f : FileData) : FS :=
  let folderName := economistPrefLit ++ date
  let base1 := removeFile fs.base f.name
  let folder1 := setFile (getFolder fs.episodes folderName) originalLit f.content
  if f.chaps.isEmpty then
    let folder2 := setFile (removeFile folder1 originalLit) f.name f.content
    ⟨base1, setFolder fs.episodes folderName folder2, fs.archive⟩
  else
    let seq := sequence (extractChapters f.chaps)
    let produced := splitChapters seq ok
    let folder2 := produced.foldl (fun acc n => setFile acc n ([] : Str)) folder1
    let folder3 := setFile folder2 manifestName (manifestText ts produced)
    let folder4 := removeFile folder3 originalLit
    ⟨base1, setFolder fs.episodes folderName folder4,
      setFile fs.archive (origPrefLit ++ date ++ mp3Lit) f.content⟩

theorem getFile_setFile_self (files : List (Str × Str)) (n c : Str) :
    getFile (setFile files n c) n = some c := by
  induction files with
  | nil => simp [setFile, getFile]
  | cons e es ih =>
    by_cases h : e.1 = n <;> simp [setFile, getFile, h, ih]

theorem getFile_setFile_ne (files : List (Str × Str)) {n m : Str} (c : Str) (h : m ≠ n) :
    getFile (setFile files n c) m = getFile files m := by
  have h' : ¬ n = m := fun hh => h hh.symm
  induction files with
  | nil => simp [setFile, getFile, h']
  | cons e es ih =>
    by_cases he : e.1 = n
    · have hm : ¬ e.1 = m := fun hh => h' (he ▸ hh)
      simp [setFile, getFile, he, h', hm]
    · rw [show setFile (e :: es) n c = e :: setFile es n c by simp [setFile, he]]
      by_cases hm : e.1 = m <;> simp [getFile, hm, ih]

theorem getFile_removeFile_self (files : List (Str × Str)) (n : Str) :
    getFile (removeFile files n) n = none := by
  induction files with
  | nil => rfl
  | cons e es ih =>
    by_cases h : e.1 = n
    · simpa [removeFile, List.filter_cons, h] using ih
    · rw [show removeFile (e :: es) n = e :: removeFile es n by
        simp [removeFile, List.filter_cons, h]]
      simpa [getFile, h] using ih

theorem getFile_removeFile_ne (files : List (Str × Str)) {n m : Str} (h : m ≠ n) :
    getFile (removeFile files n) m = getFile files m := by
  induction files with
  | nil => rfl
  | cons e es ih =>
    by_cases he : e.1 = n
    · have hm : ¬ e.1 = m := fun hh => h (hh ▸ he)
      rw [show removeFile (e :: es) n = removeFile es n by
        simp [removeFile, List.filter_cons, he]]
      rw [ih]
      simp [getFile, hm]
    · rw [show removeFile (e :: es) n = e :: removeFile es n by
        simp [removeFile, List.filter_cons, he]]
      by_cases hm : e.1 = m <;> simp [getFile, hm, ih]

theorem getFolder_setFolder_self (eps : List (Str × List (Str × Str))) (n : Str)
    (fl : List (Str × Str)) : getFolder (setFolder eps n fl) n = fl := by
  induction eps with
  | nil => simp [setFolder, getFolder]
  | cons e es ih =>
    by_cases h : e.1 = n <;> simp [setFolder, getFolder, h, ih]

theorem mem_map_fst_setFile {files : List (Str × Str)} {n c m : Str}
    (h : m ∈ (setFile files n c).map Prod.fst) : m ∈ files.map Prod.fst ∨ m = n := by
  induction files with
  | nil =>
    simp [setFile] at h
    exact Or.inr h
  | cons e es ih =>
    by_cases he : e.1 = n
    · rw [show setFile (e :: es) n c = (n, c) :: es by simp [setFile, he]] at h
      simp only [List.map_cons, List.mem_cons] at h
      rcases h with h | h
      · exact Or.inr h
      · exact Or.inl (by simp [h])
    · rw [show setFile (e :: es) n c = e :: setFile es n c by simp [setFile, he]] at h
      simp only [List.map_cons, List.mem_cons] at h
      rcases h with h | h
      · exact Or.inl (by simp [h])
      · rcases ih h with h' | h'
        · exact Or.inl (by simp; exact Or.inr (by simpa using h'))
        · exact Or.inr h'

theorem setFile_names_nodup {files : List (Str × Str)} (hnd : (files.map Prod.fst).Nodup)
    (n c : Str) : ((setFile files n c).map Prod.fst).Nodup := by
  induction files with
  | nil => simp [setFile]
  | cons e es ih =>
    rw [List.map_cons] at hnd
    rcases List.nodup_cons.mp hnd with ⟨hni, hnd'⟩
    by_cases he : e.1 = n
    · rw [show setFile (e :: es) n c = (n, c) :: es by simp [setFile, he]]
      simp only [List.map_cons]
      exact List.nodup_cons.mpr ⟨he ▸ hni, hnd'⟩
    · rw [show setFile (e :: es) n c = e :: setFile es n c by simp [setFile, he]]
      simp only [List.map_cons]
      refine List.nodup_cons.mpr ⟨?_, ih hnd'⟩
      intro hmem
      rcases mem_map_fst_setFile hmem with h' | h'
      · exact hni h'
      · exact he h'

theorem countP_setFile_self {files : List (Str × Str)} (hnd : (files.map Prod.fst).Nodup)
    (n c : Str) :
    (setFile files n c).countP (fun e => decide (e.1 = n)) = 1 := by
  induction files with
  | nil => simp [setFile]
  | cons e es ih =>
    rw [List.map_cons] at hnd
    rcases List.nodup_cons.mp hnd with ⟨hni, hnd'⟩
    by_cases he : e.1 = n
    · rw [show setFile (e :: es) n c = (n, c) :: es by simp [setFile, he]]
      rw [List.countP_cons_of_pos _ _ (by simp)]
      have hz : es.countP (fun e => decide (e.1 = n)) = 0 := by
        rw [List.countP_eq_zero]
        intro a ha hp
        simp only [decide_eq_true_eq] at hp
        exact hni (by rw [he, ← hp]; exact List.mem_map_of_mem _ ha)
      omega
    · rw [show setFile (e :: es) n c = e :: setFile es n c by simp [setFile, he]]
      rw [List.countP_cons_of_neg _ _ (by simp [he])]
      exact ih hnd'

theorem manifest_after_split (ok : Str → Bool) (ts date : Str) (fs : FS) (f : FileData)
    (h : f.chaps.isEmpty = false) :
    getFile (getFolder (split_economist_file ok ts date fs f).episodes
        (economistPrefLit ++ date)) manifestName
      = some (manifestText ts (splitChapters (sequence (extractChapters f.chaps)) ok)) := by
  simp only [split_economist_file, h, Bool.false_eq_true, if_false]
  rw [getFolder_setFolder_self, getFile_removeFile_ne _ (by decide)]
  exact getFile_setFile_self _ _ _

/-- C8: when a source file with chapters is split, the original audio ends
    up in the archive under the date-stamped name `original_<date>.mp3`
    (with its content), and it is retained nowhere in the live tree: the
    episode folder holds no `original.mp3` and the base folder no longer
    holds the input file. -/
theorem C8_original_archived (ok : Str → Bool) (ts date : Str) (fs : FS) (f : FileData)
    (h : f.chaps ≠ []) :
    getFile (split_economist_file ok ts date fs f).archive (origPrefLit ++ date ++ mp3Lit)
      = some f.content
    ∧ getFile (getFolder (split_economist_file ok ts date fs f).episodes
        (economistPrefLit ++ date)) originalLit = none
    ∧ getFile (split_economist_file ok ts date fs f).base f.name = none := by
  have hne : f.chaps.isEmpty = false := by
    cases hc : f.chaps
    · exact absurd hc h
    · rfl
  refine ⟨?_, ?_, ?_⟩
  · simp only [split_economist_file, hne, Bool.false_eq_true, if_false]
    exact getFile_setFile_self _ _ _
  · simp only [split_economist_file, hne, Bool.false_eq_true, if_false]
    rw [getFolder_setFolder_self]
    exact getFile_removeFile_self _ _
  · simp only [split_economist_file, hne, Bool.false_eq_true, if_false]
    exact getFile_removeFile_self _ _

/-- C9: a source file with zero `CHAP` frames is moved whole into the dated
    episode directory under its original basename; the call writes no
    manifest into that directory (its manifest entry is exactly what it was
    before) and the archive is untouched — the unsplit file stays in the
    live tree. -/
theorem C9_no_chapters_passthrough (ok : Str → Bool) (ts date : Str) (fs : FS)
    (f : FileData) (hc : f.chaps = []) (hn : f.name ≠ manifestName) :
    getFile (getFolder (split_economist_file ok ts date fs f).episodes
        (economistPrefLit ++ date)) f.name = some f.content
    ∧ getFile (getFolder (split_economist_file ok ts date fs f).episodes
        (economistPrefLit ++ date)) manifestName
      = getFile (getFolder fs.episodes (economistPrefLit ++ date)) manifestName
    ∧ (split_economist_file ok ts date fs f).archive = fs.archive := by
  have hne : f.chaps.isEmpty = true := by simp [hc]
  refine ⟨?_, ?_, ?_⟩
  · simp only [split_economist_file, hne, if_true]
    rw [getFolder_setFolder_self]
    exact getFile_setFile_self _ _ _
  · simp only [split_economist_file, hne, if_true]
    rw [getFolder_setFolder_self]
    rw [getFile_setFile_ne _ _ (fun hh => hn hh.symm)]
    rw [getFile_removeFile_ne _ (by decide)]
    rw [getFile_setFile_ne _ _ (by decide)]
  · simp only [split_economist_file, hne, if_true]

/-- C10: two source files processed under the same date token write their
    originals to the identical archive path `original_<date>.mp3`, the
    later move replacing the earlier — afterwards that name occurs exactly
    once in the archive and carries the second file's content — and the
    second file writes into the same dated episode directory, its manifest
    replacing the first one's. -/
theorem C10_same_day_overwrite (ok : Str → Bool) (ts1 ts2 date : Str) (fs : FS)
    (f1 f2 : FileData) (h1 : f1.chaps ≠ []) (h2 : f2.chaps ≠ [])
    (hund : (fs.archive.map Prod.fst).Nodup) :
    getFile (split_economist_file ok ts2 date
        (split_economist_file ok ts1 date fs f1) f2).archive
        (origPrefLit ++ date ++ mp3Lit) = some f2.content
    ∧ (split_economist_file ok ts2 date
        (split_economist_file ok ts1 date fs f1) f2).archive.countP
        (fun e => decide (e.1 = origPrefLit ++ date ++ mp3Lit)) = 1
    ∧ getFile (getFolder (split_economist_file ok ts2 date
          (split_economist_file ok ts1 date fs f1) f2).episodes
          (economistPrefLit ++ date)) manifestName
      = some (manifestText ts2 (splitChapters (sequence (extractChapters f2.chaps)) ok)) := by
  have hne1 : f1.chaps.isEmpty = false := by
    cases hc : f1.chaps
    · exact absurd hc h1
    · rfl
  have hne2 : f2.chaps.isEmpty = false := by
    cases hc : f2.chaps
    · exact absurd hc h2
    · rfl
  have harch1 : (split_economist_file ok ts1 date fs f1).archive
      = setFile fs.archive (origPrefLit ++ date ++ mp3Lit) f1.content := by
    simp only [split_economist_file, hne1, Bool.false_eq_true, if_false]
  have harch2 : (split_economist_file ok ts2 date
        (split_economist_file ok ts1 date fs f1) f2).archive
      = setFile (setFile fs.archive (origPrefLit ++ date ++ mp3Lit) f1.content)
          (origPrefLit ++ date ++ mp3Lit) f2.content := by
    simp only [split_economist_file, hne1, hne2, Bool.false_eq_true, if_false]
  refine ⟨?_, ?_, ?_⟩
  · rw [harch2]
    exact getFile_setFile_self _ _ _
  · rw [harch2]
    exact countP_setFile_self (setFile_names_nodup hund _ _) _ _
  · exact manifest_after_split ok ts2 date _ f2 hne2

/-- Python `s.replace(pat, rep)` with bounded fuel (every non-overlapping
    occurrence, scanned left to right); the fuel is always instantiated with
    the string's length, which suffices. -/
def replaceAllFuel (pat rep : Str) : ℕ → Str → Str
  | 0, s => s
  | _ + 1, [] => []
  | fuel + 1, c :: cs =>
    if pat ≠ [] ∧ pat.isPrefixOf (c :: cs) then
      rep ++ replaceAllFuel pat rep fuel ((c :: cs).drop pat.length)
    else c :: replaceAllFuel pat rep fuel cs

/-- Python `s.replace(pat, rep)`. -/
def replaceAll (pat rep s : Str) : Str := replaceAllFuel pat rep s.length s

/-- The suffix after the first occurrence of `sep`, if any. -/
def afterFirst (sep : Str) : Str → Option Str
  | [] => none
  | c :: cs =>
    if sep.isPrefixOf (c :: cs) then some ((c :: cs).drop sep.length)
    else afterFirst sep cs

/-- Python `s.split(sep, 1)[-1]`: everything after the first occurrence of
    `sep`, or the whole string when `sep` does not occur. -/
def splitOnceLast (sep s : Str) : Str := (afterFirst sep s).getD s

/-- Day count of a month (with the Gregorian leap rule), as validated by
    `datetime.datetime`. -/
def daysInMonth (y m : ℕ) : ℕ :=
  if m = 2 then (if y % 4 = 0 ∧ (y % 100 ≠ 0 ∨ y % 400 = 0) then 29 else 28)
  else if m = 4 ∨ m = 6 ∨ m = 9 ∨ m = 11 then 30 else 31

/-- Numeric value of a decimal digit character. -/
def digitVal (c : Char) : ℕ := c.toNat - 48

/-- The `%m` field of `strptime`: regex `1[0-2]|0[1-9]|[1-9]`, longest
    listed alternative first; returns the month and the unconsumed rest. -/
def matchMonth : Str → Option (ℕ × Str)
  | [] => none
  | c :: rest =>
    if c = '1' then
      match rest with
      | d :: rest2 =>
        if d = '0' ∨ d = '1' ∨ d = '2' then some (10 + digitVal d, rest2)
        else some (1, rest)
      | [] => some (1, [])
    else if c = '0' then
      match rest with
      | d :: rest2 => if '1' ≤ d ∧ d ≤ '9' then some (digitVal d, rest2) else none
      | [] => none
    else if '2' ≤ c ∧ c ≤ '9' then some (digitVal c, rest)
    else none

/-- The `%d` field of `strptime`: regex `3[01]|[12]\x5cd|0[1-9]|[1-9]`. -/
def matchDay : Str → Option (ℕ × Str)
  | [] => none
  | c :: rest =>
    if c = '3' then
      match rest with
      | d :: rest2 =>
        if d = '0' ∨ d = '1' then some (30 + digitVal d, rest2)
        else some (3, rest)
      | [] => some (3, [])
    else if c = '1' ∨ c = '2' then
      match rest with
      | d :: rest2 =>
        if d.isDigit then some (digitVal c * 10 + digitVal d, rest2)
        else some (digitVal c, rest)
      | [] => some (digitVal c, [])
    else if c = '0' then
      match rest with
      | d :: rest2 => if '1' ≤ d ∧ d ≤ '9' then some (digitVal d, rest2) else none
      | [] => none
    else if '4' ≤ c ∧ c ≤ '9' then some (digitVal c, rest)
    else none

/-- `datetime.strptime(s, "%Y-%m-%d")` followed by `datetime` range
    validation: four year digits, dash, month, dash, day, end of string;
    year at least 1, day within the month. `none` models the `ValueError`
    caught by the bare `except` on line 340. -/
def parseDate (s : Str) : Option (ℕ × ℕ × ℕ) :=
  match s with
  | y1 :: y2 :: y3 :: y4 :: '-' :: rest =>
    if y1.isDigit ∧ y2.isDigit ∧ y3.isDigit ∧ y4.isDigit then
      let y := ((digitVal y1 * 10 + digitVal y2) * 10 + digitVal y3) * 10 + digitVal y4
      match matchMonth rest with
      | some (m, '-' :: rest2) =>
        match matchDay rest2 with
        | some (d, []) =>
          if 1 ≤ y ∧ d ≤ daysInMonth y m then some (y, m, d) else none
        | _ => none
      | _ => none
    else none
  | _ => none

/-- Day of the week (0 = Sunday) by Sakamoto's method. -/
def dayOfWeek (y m d : ℕ) : ℕ :=
  let t := [0, 3, 2, 5, 0, 3, 5, 1, 4, 6, 2, 4]
  let y' := if m < 3 then y - 1 else y
  (y' + y' / 4 - y' / 100 + y' / 400 + t.getD (m - 1) 0 + d) % 7

/-- `%a` weekday abbreviations, Sunday first. -/
def weekdayAbbrev (w : ℕ) : Str :=
  ([("Sun").data, ("Mon").data, ("Tue").data, ("Wed").data, ("Thu").data,
    ("Fri").data, ("Sat").data]).getD w []

/-- `%b` month abbreviations. -/
def monthAbbrev (m : ℕ) : Str :=
  ([("Jan").data, ("Feb").data, ("Mar").data, ("Apr").data, ("May").data,
    ("Jun").data, ("Jul").data, ("Aug").data, ("Sep").data, ("Oct").data,
    ("Nov").data, ("Dec").data]).getD (m - 1) []

/-- `strftime('%a, %d %b %Y 12:00:00 GMT')` on a parsed folder date. -/
def fmtNoon (y m d : ℕ) : Str :=
  weekdayAbbrev (dayOfWeek y m d) ++ (", ").data ++ pad2 d ++ (" ").data
    ++ monthAbbrev m ++ (" ").data ++ natStr y ++ (" 12:00:00 GMT").data

/-- A wall-clock instant (`datetime.now()`). -/
structure DateTime where
  year : ℕ
  month : ℕ
  day : ℕ
  hour : ℕ
  minute : ℕ
  second : ℕ
deriving DecidableEq

/-- `strftime('%a, %d %b %Y %H:%M:%S GMT')` on the current time. -/
def fmtNow (t : DateTime) : Str :=
  weekdayAbbrev (dayOfWeek t.year t.month t.day) ++ (", ").data ++ pad2 t.day
    ++ (" ").data ++ monthAbbrev t.month ++ (" ").data ++ natStr t.year
    ++ (" ").data ++ pad2 t.hour ++ (":").data ++ pad2 t.minute ++ (":").data
    ++ pad2 t.second ++ (" GMT").data

/-- A directory of the live tree as the feed builder sees it: its name and
    its files with their byte sizes. -/
structure Dir where
  name : Str
  files : List (Str × ℕ)
deriving DecidableEq

/-- One `<item>` of the feed. -/
structure FeedItem where
  title : Str
  description : Str
  url : Str
  size : ℕ
  guid : Str
  pubDate : Str
deriving DecidableEq

/-- The literal `' '`. -/
def spaceLit : Str := (" ").data

/-- The literal `'%20'`. -/
def pct20Lit : Str := ("%20").data

/-- Space percent-encoding (`.replace(' ', '%20')`, line 325-326). -/
def pctEncode (s : Str) : Str := replaceAll spaceLit pct20Lit s

/-- The date token of a folder name as the source computes it (line 318):
    every occurrence of `Economist_` removed — which strips the prefix
    whenever the remainder does not itself contain `Economist_`. -/
def dateToken (folder : Str) : Str := replaceAll economistPrefLit [] folder

/-- The title text of a file name as the source computes it (line 319):
    every occurrence of `.mp3` removed, then everything after the first
    `' - '`. -/
def titleText (fileName : Str) : Str :=
  splitOnceLast sepLit (replaceAll mp3Lit [] fileName)

/-- The enclosure URL (lines 325-327). -/
def enclosureURL (username repo folder fileName : Str) : Str :=
  ("https://").data ++ username ++ (".github.io/").data ++ repo ++ ("/").data
    ++ pctEncode folder ++ ("/").data ++ pctEncode fileName

/-- One feed item as built in the loop body (lines 312-345). -/
def mkItem (username repo : Str) (now : DateTime) (folder fileName : Str)
    (size : ℕ) : FeedItem :=
  let date_part := dateToken folder
  let title_part := titleText fileName
  let full_title := date_part ++ sepLit ++ title_part
  let file_url := enclosureURL username repo folder fileName
  let pub_date := match parseDate date_part with
    | some (y, m, d) => fmtNoon y m d
    | none => fmtNow now
  { title := full_title
    description := ("The Economist Weekly Edition - ").data ++ title_part
    url := file_url
    size := size
    guid := file_url
    pubDate := pub_date }

/-- Line 299: the feed builder takes every directory whose name starts with
    `Economist_` (no `Archive` exclusion here). -/
def isFeedEpisodeDir (n : Str) : Bool := economistPrefLit.isPrefixOf n

/-- Stable ascending insertion by name (the step of Python `list.sort()`). -/
def insortAsc {α : Type} (name : α → Str) (a : α) : List α → List α
  | [] => [a]
  | b :: l => if strLT (name b) (name a) then b :: insortAsc name a l else a :: b :: l

/-- Python `list.sort()` keyed by `name`: stable ascending sort. -/
def sortAscBy {α : Type} (name : α → Str) : List α → List α
  | [] => []
  | a :: l => insortAsc name a (sortAscBy name l)

/-- `generate_rss_feed` (lines 269-356), as the list of emitted `<item>`
    elements in document order: episode folders sorted descending by name,
    `.mp3` files of each sorted ascending, one item appended per file. -/
def generate_rss_feed (username repo : Str) (dirs : List Dir) (now : DateTime) :
    List FeedItem :=
  let eps := sortDescBy Dir.name (dirs.filter (fun d => isFeedEpisodeDir d.name))
  eps.foldl (fun acc d =>
    let mp3s := sortAscBy Prod.fst (d.files.filter (fun f => mp3Lit.isSuffixOf f.1))
    acc ++ mp3s.map (fun f => mkItem username repo now d.name f.1 f.2)) []

/-- Modelled from the spec (§4.5), with the title rule amended as the
    counterexample forces (every `.mp3` occurrence removed rather than only
    the trailing extension): one item per `.mp3` file, directories
    descending by name, files ascending; title `<date token> - <title
    text>`, description naming the publication, guid equal to the enclosure
    URL (spaces percent-encoded), pubDate noon UTC on the parsed date or
    the current time when the token fails to parse. -/
def feedItemsSpec (username repo : Str) (dirs : List Dir) (now : DateTime) :
    List FeedItem :=
  ((sortDescBy Dir.name (dirs.filter (fun d => isFeedEpisodeDir d.name))).map (fun d =>
    (sortAscBy Prod.fst (d.files.filter (fun f => mp3Lit.isSuffixOf f.1))).map (fun f =>
      { title := dateToken d.name ++ sepLit ++ titleText f.1
        description := ("The Economist Weekly Edition - ").data ++ titleText f.1
        url := enclosureURL username repo d.name f.1
        size := f.2
        guid := enclosureURL username repo d.name f.1
        pubDate := match parseDate (dateToken d.name) with
          | some (y, m, d) => fmtNoon y m d
          | none => fmtNow now }))).flatten

theorem insortAsc_perm {α : Type} (name : α → Str) (a : α) (l : List α) :
    List.Perm (insortAsc name a l) (a :: l) := by
  induction l with
  | nil => exact List.Perm.refl _
  | cons b l ih =>
    unfold insortAsc
    split
    · exact (List.Perm.cons b ih).trans (List.Perm.swap a b l)
    · exact List.Perm.refl _

theorem sortAscBy_perm {α : Type} (name : α → Str) (l : List α) :
    List.Perm (sortAscBy name l) l := by
  induction l with
  | nil => exact List.Perm.refl _
  | cons a l ih => exact (insortAsc_perm name a (sortAscBy name l)).trans (List.Perm.cons a ih)

theorem mkItem_now_eq (username repo folder fileName : Str) (size : ℕ)
    (now1 now2 : DateTime) (h : (parseDate (dateToken folder)).isSome = true) :
    mkItem username repo now1 folder fileName size
      = mkItem username repo now2 folder fileName size := by
  rcases Option.isSome_iff_exists.mp h with ⟨⟨y, m, d⟩, heq⟩
  simp [mkItem, heq]

theorem foldl_append_map {α β : Type} (f : α → List β) (l : List α) (acc : List β) :
    l.foldl (fun acc a => acc ++ f a) acc = acc ++ (l.map f).flatten := by
  induction l generalizing acc with
  | nil => simp
  | cons a l ih => simp [List.foldl_cons, ih]

/-- C3 (amended): the feed builder is deterministic — two runs over the same
    directory tree emit the same item list — provided every episode
    directory's date token parses as a date; the clock only enters through
    the pubDate fallback for unparseable tokens. -/
theorem C3_feed_deterministic (username repo : Str) (dirs : List Dir)
    (now1 now2 : DateTime)
    (h : ∀ d ∈ dirs, isFeedEpisodeDir d.name = true →
        (parseDate (dateToken d.name)).isSome = true) :
    generate_rss_feed username repo dirs now1
      = generate_rss_feed username repo dirs now2 := by
  unfold generate_rss_feed
  have heps : ∀ d ∈ sortDescBy Dir.name (dirs.filter fun d => isFeedEpisodeDir d.name),
      (parseDate (dateToken d.name)).isSome = true := by
    intro d hd
    have hmem := (sortDescBy_perm Dir.name _).mem_iff.mp hd
    have hf := List.mem_filter.mp hmem
    exact h d hf.1 hf.2
  generalize sortDescBy Dir.name (dirs.filter fun d => isFeedEpisodeDir d.name) = eps at heps ⊢
  have key : ∀ eps : List Dir,
      (∀ d ∈ eps, (parseDate (dateToken d.name)).isSome = true) →
      ∀ acc : List FeedItem,
      eps.foldl (fun acc d => acc
          ++ (sortAscBy Prod.fst (d.files.filter (fun f => mp3Lit.isSuffixOf f.1))).map
            (fun f => mkItem username repo now1 d.name f.1 f.2)) acc
        = eps.foldl (fun acc d => acc
          ++ (sortAscBy Prod.fst (d.files.filter (fun f => mp3Lit.isSuffixOf f.1))).map
            (fun f => mkItem username repo now2 d.name f.1 f.2)) acc := by
    intro eps
    induction eps with
    | nil => intro _ acc; rfl
    | cons d eps ih =>
      intro hh acc
      rw [List.foldl_cons, List.foldl_cons]
      have hmap : (fun f : Str × ℕ => mkItem username repo now1 d.name f.1 f.2)
          = (fun f : Str × ℕ => mkItem username repo now2 d.name f.1 f.2) :=
        funext (fun f => mkItem_now_eq username repo d.name f.1 f.2 now1 now2
          (hh d (List.mem_cons_self _ _)))
      rw [hmap]
      exact ih (fun d' hd' => hh d' (List.mem_cons_of_mem _ hd')) _
  exact key eps heps []

/-- The directory of the C3 counterexample: its date token `latest` does
    not parse as a date. -/
def exDirsC3 : List Dir := [⟨("Economist_latest").data, [(("01 - a.mp3").data, 5)]⟩]

/-- A clock instant used by the counterexamples. -/
def exNow1 : DateTime := ⟨2024, 1, 1, 1, 0, 0⟩

/-- A second clock instant, one hour later. -/
def exNow2 : DateTime := ⟨2024, 1, 1, 2, 0, 0⟩

/-- C3 (counterexample): over a fixed tree containing `Economist_latest`,
    two runs at different wall-clock times emit different feed documents
    (the item's pubDate embeds the current time), so the output does not
    depend on the directory contents alone. -/
theorem C3_counterexample :
    generate_rss_feed (("u").data) (("r").data) exDirsC3 exNow1
      ≠ generate_rss_feed (("u").data) (("r").data) exDirsC3 exNow2
    ∧ (generate_rss_feed (("u").data) (("r").data) exDirsC3 exNow1).length = 1 := by
  refine ⟨by decide, by decide⟩

/-- A directory tree whose date token parses, for the C3 witness. -/
def exDirsC3W : List Dir := [⟨("Economist_2024-01-01").data, [(("01 - a.mp3").data, 5)]⟩]

/-- C6 (amended): the emitted item list is exactly the spec's item list with
    the amended title rule (`.mp3` removed everywhere, not just as the
    trailing extension): one item per `.mp3` file of each `Economist_`
    directory, directories descending, files ascending, guid equal to the
    enclosure URL, pubDate noon UTC on the parsed date token or the current
    time when it fails to parse; in particular the item count equals the
    number of `.mp3` files present and every guid equals its enclosure
    URL. -/
theorem C6_feed_contents (username repo : Str) (dirs : List Dir) (now : DateTime) :
    generate_rss_feed username repo dirs now = feedItemsSpec username repo dirs now
    ∧ (generate_rss_feed username repo dirs now).length
        = ((dirs.filter (fun d => isFeedEpisodeDir d.name)).map
            (fun d => (d.files.filter (fun f => mp3Lit.isSuffixOf f.1)).length)).sum
    ∧ ∀ it ∈ generate_rss_feed username repo dirs now, it.guid = it.url := by
  have h1 : generate_rss_feed username repo dirs now
      = feedItemsSpec username repo dirs now := by
    unfold generate_rss_feed feedItemsSpec
    rw [foldl_append_map]
    rfl
  refine ⟨h1, ?_, ?_⟩
  · rw [h1]
    unfold feedItemsSpec
    rw [List.length_flatten, List.map_map]
    rw [List.map_congr_left (g := fun d : Dir =>
        (d.files.filter (fun f => mp3Lit.isSuffixOf f.1)).length)
      (fun d _ => by
        simp only [Function.comp_apply, List.length_map]
        exact (sortAscBy_perm Prod.fst _).length_eq)]
    exact (((sortDescBy_perm Dir.name (dirs.filter fun d => isFeedEpisodeDir d.name)).map
      (fun d : Dir => (d.files.filter (fun f => mp3Lit.isSuffixOf f.1)).length))).sum_eq
  · intro it hit
    rw [h1] at hit
    unfold feedItemsSpec at hit
    rcases List.mem_flatten.mp hit with ⟨l, hl, hitl⟩
    rcases List.mem_map.mp hl with ⟨d, hd, rfl⟩
    rcases List.mem_map.mp hitl with ⟨f, hf, rfl⟩
    rfl

/-- The directory of the C6 counterexample: a file whose name contains
    `.mp3` in the middle as well as at the end. -/
def exDirsC6 : List Dir := [⟨("Economist_2024-01-01").data, [(("01 - a.mp3b.mp3").data, 7)]⟩]

/-- C6 (counterexample): for the file `01 - a.mp3b.mp3` the claim's title
    rule (extension stripped) gives `2024-01-01 - a.mp3b`, but the code
    removes every occurrence of `.mp3` and emits `2024-01-01 - ab`. -/
theorem C6_counterexample :
    (generate_rss_feed (("u").data) (("r").data) exDirsC6 exNow1).map FeedItem.title
      = [("2024-01-01 - ab").data]
    ∧ ¬ (generate_rss_feed (("u").data) (("r").data) exDirsC6 exNow1).map FeedItem.title
      = [("2024-01-01 - a.mp3b").data] := by
  refine ⟨by decide, by decide⟩

/-- C1 witness: the kept 100-second chapter of `exC1` at output index 2 is
    indeed not short. -/
theorem C1_witness :
    ¬ ((2 : ℕ), (⟨0, 100, ("B").data⟩ : Chapter)).2.duration < 60 :=
  (C1_split_indices exC1 (fun _ => true)).2.2 (2, ⟨0, 100, ("B").data⟩) (by decide)

/-- C3 witness: over a tree whose date token parses, two runs an hour apart
    emit the same feed. -/
theorem C3_witness :
    generate_rss_feed (("u").data) (("r").data) exDirsC3W exNow1
      = generate_rss_feed (("u").data) (("r").data) exDirsC3W exNow2 :=
  C3_feed_deterministic (("u").data) (("r").data) exDirsC3W exNow1 exNow2 (by decide)

/-- C4 witness: with no move failing, exactly the newest dated directory
    remains in the live tree. -/
theorem C4_witness :
    (archive_old_episodes (fun _ => false) ⟨exLiveC4, []⟩).live.filter isEpisodeDirName
      = [("Economist_2024-01-02").data] :=
  (C4_archive_retention (fun _ => false) ⟨exLiveC4, []⟩ (("Economist_2024-01-02").data)
    [("Economist_2024-01-01").data] (by decide) (by decide) (by decide)).2.2.2.2 (by decide)

/-- C5 witness: a chapter with a single textless sub-frame, extracted first,
    gets the fallback title `Chapter_1`. -/
theorem C5_witness :
    resolveTitle 0 [⟨none⟩] = chapterFallbackLit ++ natStr 1 :=
  C5_title_sanitization.2.2 0 [⟨none⟩] (by decide)

/-- C7 witness: the kept, successfully produced chapter of `exC1` appears in
    the produced list even though it follows a skipped chapter. -/
theorem C7_witness :
    chapterFileName 2 (("B").data) ∈ splitChapters exC1 (fun _ => true) :=
  (C7_split_error_handling [] exC1 (fun _ => true)).2.1 (2, ⟨0, 100, ("B").data⟩)
    (by decide) (by decide) (by decide)

/-- A split source file with one two-minute chapter. -/
def exFileC8 : FileData :=
  ⟨("a.mp3").data, ("AUDIO1").data, [⟨0, 120000, [⟨some (("Intro").data)⟩]⟩]⟩

/-- C8 witness: after splitting `exFileC8`, its audio sits in the archive
    under the date-stamped name. -/
theorem C8_witness :
    getFile (split_economist_file (fun _ => true) ([] : Str) (("2024-01-01").data)
        ⟨[], [], []⟩ exFileC8).archive (origPrefLit ++ ("2024-01-01").data ++ mp3Lit)
      = some exFileC8.content :=
  (C8_original_archived (fun _ => true) ([] : Str) (("2024-01-01").data) ⟨[], [], []⟩
    exFileC8 (by decide)).1

/-- A source file carrying no chapter frames. -/
def exFileC9 : FileData := ⟨("c.mp3").data, ("AUDIO0").data, []⟩

/-- C9 witness: the chapterless file ends up under its own basename in the
    dated folder. -/
theorem C9_witness :
    getFile (getFolder (split_economist_file (fun _ => true) ([] : Str)
        (("2024-01-01").data) ⟨[], [], []⟩ exFileC9).episodes
        (economistPrefLit ++ ("2024-01-01").data)) exFileC9.name
      = some exFileC9.content :=
  (C9_no_chapters_passthrough (fun _ => true) ([] : Str) (("2024-01-01").data)
    ⟨[], [], []⟩ exFileC9 (by decide) (by decide)).1

/-- A second split source file processed under the same date token. -/
def exFileC10 : FileData :=
  ⟨("b.mp3").data, ("AUDIO2").data, [⟨0, 120000, [⟨some (("Intro").data)⟩]⟩]⟩

/-- C10 witness: after two same-day runs, the archived-original name occurs
    exactly once in the archive. -/
theorem C10_witness :
    (split_economist_file (fun _ => true) ([] : Str) (("2024-01-01").data)
        (split_economist_file (fun _ => true) ([] : Str) (("2024-01-01").data)
          ⟨[], [], []⟩ exFileC8) exFileC10).archive.countP
        (fun e => decide (e.1 = origPrefLit ++ ("2024-01-01").data ++ mp3Lit)) = 1 :=
  (C10_same_day_overwrite (fun _ => true) ([] : Str) ([] : Str) (("2024-01-01").data)
    ⟨[], [], []⟩ exFileC8 exFileC10 (by decide) (by decide) (by decide)).2.1

/-- C6 witness: a concrete emitted item's guid equals its enclosure URL. -/
theorem C6_witness :
    (mkItem (("u").data) (("r").data) exNow1 (("Economist_2024-01-01").data)
        (("01 - a.mp3b.mp3").data) 7).guid
      = (mkItem (("u").data) (("r").data) exNow1 (("Economist_2024-01-01").data)
        (("01 - a.mp3b.mp3").data) 7).url :=
  (C6_feed_contents (("u").data) (("r").data) exDirsC6 exNow1).2.2 _ (by decide)

end Econ
